import Mathlib

/-!
Shallow embedding of the greedy circuit-routing core of this repository
(`cirq/contrib/routing/greedy.py` and `cirq/contrib/routing/initialization.py`).

Physical qubits (device sites) are a type `P`, logical qubits a type `L`.
The router's two dictionaries `_phys_to_log` (every physical qubit is a key,
the value may be `None`) and `_log_to_phys` (keys are the logical qubits in
use) are modelled as total functions into `Option`: `ptl : P → Option L` and
`ltp : L → Option P`, where `ltp l = none` means `l` is not a key of
`_log_to_phys`.  External collaborators (the dependency-graph frontier
extractor, `networkx` centrality, `random.choice`, `nx.shortest_path`) are
passed in as parameters, following the spec's abstract-interface design.
-/

set_option linter.unusedSectionVars false

namespace CirqRouting

structure QMap (P L : Type) where
  ptl : P → Option L
  ltp : L → Option P

section MappingModel

variable {P L : Type} [DecidableEq P] [DecidableEq L]

/-- One iteration of `_GreedyRouter.update_mapping` for a single physical edge
`e = (p0, p1)`: reads `old_logical_edge = (ptl p0, ptl p1)`, writes
`ptl p0 := l1`, `ptl p1 := l0` and, for each non-`None` logical qubit,
`ltp l1 := p0` then `ltp l0 := p1` (dictionary assignment, later write wins). -/
def update_edge (m : QMap P L) (e : P × P) : QMap P L :=
  let l0 := m.ptl e.1
  let l1 := m.ptl e.2
  { ptl := fun p => if p = e.2 then l0 else if p = e.1 then l1 else m.ptl p
    ltp := fun l => if l0 = some l then some e.2 else
      if l1 = some l then some e.1 else m.ltp l }

/-- Embeds `_GreedyRouter.update_mapping(*physical_edges)`: sequentially applies the
SWAP bookkeeping of each physical edge. -/
def update_mapping (m : QMap P L) (physical_edges : List (P × P)) : QMap P L :=
  physical_edges.foldl update_edge m

/-- The property checked by `_GreedyRouter._assert_mapping_consistency`:
the key set of `_log_to_phys` is exactly the full logical qubit set
(`sorted(self._log_to_phys) == sorted(self.logical_qubits)`), and for every
logical key `l`, `l == self._phys_to_log[self._log_to_phys[l]]`.  (The check
`sorted(self._phys_to_log) == sorted(self.physical_qubits)` is structural
here: `ptl` is total on `P`.) -/
def assert_mapping_consistency (m : QMap P L) : Prop :=
  (∀ l : L, (m.ltp l).isSome) ∧
    (∀ (l : L) (p : P), m.ltp l = some p → m.ptl p = some l)

/-- The reverse inclusion, *not* checked by the code's assertion: every
physical slot holding a logical qubit is the slot `_log_to_phys` points at. -/
def Coherent (m : QMap P L) : Prop :=
  ∀ (p : P) (l : L), m.ptl p = some l → m.ltp l = some p

/-- A complete bijection between the full logical operand set and the physical
sites in use: the two dictionaries are mutual inverses and every logical qubit
is mapped (every physical qubit is a key of `ptl` structurally). -/
def FullBijection (m : QMap P L) : Prop :=
  assert_mapping_consistency m ∧ Coherent m

/-- Reconstruction of `_log_to_phys` from `_phys_to_log` as in
`set_initial_mapping`: `{l: p for p, l in self._phys_to_log.items() if l is
not None}` — for each logical `l`, the *last* physical qubit (in the
`physical_qubits` iteration order) whose slot holds `l`. -/
def build_log_to_phys (physical_qubits : List P) (ptl : P → Option L) :
    L → Option P :=
  fun l => (physical_qubits.filter (fun p => decide (ptl p = some l))).getLast?

/-- Embeds `_GreedyRouter.set_initial_mapping`: `_phys_to_log` maps every physical
qubit `q` to `initial_mapping.get(q)` and `_log_to_phys` is rebuilt from it. -/
def set_initial_mapping (physical_qubits : List P)
    (initial_mapping : P → Option L) : QMap P L :=
  { ptl := initial_mapping
    ltp := build_log_to_phys physical_qubits initial_mapping }

/-- Embeds `set(e).isdisjoint(f)` for two device edges: no shared endpoint. -/
def edges_disjoint (e f : P × P) : Prop :=
  e.1 ≠ f.1 ∧ e.1 ≠ f.2 ∧ e.2 ≠ f.1 ∧ e.2 ≠ f.2

instance edges_disjoint_decidable (e f : P × P) :
    Decidable (edges_disjoint e f) := by
  unfold edges_disjoint
  infer_instance

end MappingModel

section Dominance

/-- Element-wise `all(v >= w)` on equal-length numeric vectors (the `numpy`
comparison used by `_get_dominated_indices`). -/
def vec_all_ge (v w : List Nat) : Bool :=
  (v.zip w).all (fun ab => decide (ab.2 ≤ ab.1))

/-- Embeds `vectors[:i] + vectors[i+1:]`: all vectors other than the one at `i`. -/
def others_at (vectors : List (List Nat)) (i : Nat) : List (List Nat) :=
  vectors.take i ++ vectors.drop (i + 1)

/-- Embeds `_get_dominated_indices(vectors)`: the indices `i` such that some other
vector `w` (at a different position) satisfies `all(vectors[i] >= w)`. -/
def get_dominated_indices (vectors : List (List Nat)) : List Nat :=
  (List.range vectors.length).filter
    (fun i => (others_at vectors i).any (fun w => vec_all_ge (vectors.getD i []) w))

end Dominance

section Router

variable {P L : Type} [DecidableEq P] [DecidableEq L]

/-- Embeds `(a, b) in device_graph.edges` for an undirected `networkx` graph:
membership in either orientation. -/
def is_edge (device_edges : List (P × P)) (a b : P) : Bool :=
  device_edges.any (fun e => (decide (e.1 = a) && decide (e.2 = b)) ||
    (decide (e.1 = b) && decide (e.2 = a)))

/-- Embeds `_GreedyRouter.get_edge_sets`: all size-`edge_set_size` combinations of
device edges whose members are pairwise disjoint. -/
def get_edge_sets (device_edges : List (P × P)) (edge_set_size : Nat) :
    List (List (P × P)) :=
  (List.sublistsLen edge_set_size device_edges).filter
    (fun edge_set => decide (edge_set.Pairwise edges_disjoint))

/-- Neighbors of `p` in the undirected device graph. -/
def neighbors (device_edges : List (P × P)) (p : P) : List P :=
  device_edges.filterMap (fun e =>
    if e.1 = p then some e.2 else if e.2 = p then some e.1 else none)

/-- Breadth-first enumeration of the vertices reachable from a source
together with their hop distances (the per-source rows of
`nx.shortest_path_length`). -/
def bfs_layers (device_edges : List (P × P)) :
    Nat → List P → List P → Nat → List (P × Nat)
  | 0, _, _, _ => []
  | fuel + 1, seen, frontier, d =>
    match frontier with
    | [] => []
    | _ =>
      let next := (((frontier.map (neighbors device_edges)).flatten).filter
        (fun q => decide (¬ q ∈ seen))).dedup
      frontier.map (fun p => (p, d)) ++
        bfs_layers device_edges fuel (seen ++ next) next (d + 1)

/-- Embeds `self.physical_distances`: the all-pairs shortest-path dictionary built in
`_GreedyRouter.__init__` from `nx.shortest_path_length(device_graph)`; it only
holds keys `(a, b)` with `b` reachable from `a`. -/
def physical_distances (device_edges : List (P × P)) (nodes : List P) :
    List ((P × P) × Nat) :=
  (nodes.map (fun a =>
    (bfs_layers device_edges (nodes.length + 1) [a] [a] 0).map
      (fun pd => ((a, pd.1), pd.2)))).flatten

/-- Dictionary lookup `self.physical_distances[(p, q)]`; `none` is the
`KeyError` case. -/
def lookup_distance (tbl : List ((P × P) × Nat)) (p q : P) : Option Nat :=
  (tbl.find? (fun x => decide (x.1.1 = p ∧ x.1.2 = q))).map Prod.snd

/-- Embeds `_GreedyRouter.distance`: the physical distance between the qubits mapped
to by a logical pair; `none` models a `KeyError` (either a missing
`_log_to_phys` key or an unreachable physical pair). -/
def distance (tbl : List ((P × P) × Nat)) (m : QMap P L) (e : L × L) :
    Option Nat :=
  match m.ltp e.1, m.ltp e.2 with
  | some p, some q => lookup_distance tbl p q
  | _, _ => none

/-- Embeds `_GreedyRouter.get_distance_vector`: apply the swaps to the mapping,
measure the distance of every logical edge, apply the swaps again (the
revert).  Returns the measurement and the mapping the router is left with. -/
def get_distance_vector (tbl : List ((P × P) × Nat)) (m : QMap P L)
    (logical_edges : List (L × L)) (swaps : List (P × P)) :
    Option (List Nat) × QMap P L :=
  let m1 := update_mapping m swaps
  (logical_edges.mapM (distance tbl m1), update_mapping m1 swaps)

/-- The list comprehension `[self.get_distance_vector(timeslice.edges, s) for
s in candidate_swap_sets]`, threading the router's mapping through each
call. -/
def compute_vectors (tbl : List ((P × P) × Nat)) (les : List (L × L)) :
    QMap P L → List (List (P × P)) → Option (List (List Nat)) × QMap P L
  | m, [] => (some [], m)
  | m, S :: Ss =>
    let r := get_distance_vector tbl m les S
    let rest := compute_vectors tbl les r.2 Ss
    match r.1, rest.1 with
    | some v, some vs => (some (v :: vs), rest.2)
    | _, _ => (none, rest.2)

/-- The pruning step of `apply_next_swaps`: drop every candidate whose index
is dominated. -/
def prune_candidates {α : Type} (vectors : List (List Nat)) (cands : List α) :
    List α :=
  let dominated := get_dominated_indices vectors
  (cands.enum.filter (fun iS => decide (¬ iS.1 ∈ dominated))).map Prod.snd

/-- The inner `for timeslice in timeslices` loop of `apply_next_swaps` for one
matching size: prune the candidate swap sets against each timeslice in order
and stop as soon as exactly one candidate remains.  `ok (some S, m)` means `S`
was chosen, `ok (none, m)` that this matching size did not narrow to a unique
candidate, `error` a `KeyError` inside a distance lookup. -/
def narrow_slices (tbl : List ((P × P) × Nat)) :
    QMap P L → List (List (P × P)) → List (List (L × L)) →
      Except Unit (Option (List (P × P)) × QMap P L)
  | m, _, [] => Except.ok (none, m)
  | m, cands, ts :: rest =>
    match compute_vectors tbl ts m cands with
    | (none, _) => Except.error ()
    | (some vecs, m2) =>
      match prune_candidates vecs cands with
      | [S] => Except.ok (some S, m2)
      | cands' => narrow_slices tbl m2 cands' rest

/-- Names the intermediate state of the `narrow_slices` loop: the pruned
candidate swap-set list and the threaded mapping after the given prefix of
timeslices has been processed (the same fold `narrow_slices` performs before
its `len == 1` exit, without the exit); `none` on a distance `KeyError`.
Used to anchor statements about "the candidate set at the moment of choice"
to the actual run. -/
def narrow_run (tbl : List ((P × P) × Nat)) :
    QMap P L → List (List (P × P)) → List (List (L × L)) →
      Option (List (List (P × P)) × QMap P L)
  | m, cands, [] => some (cands, m)
  | m, cands, ts :: rest =>
    match compute_vectors tbl ts m cands with
    | (none, _) => none
    | (some vecs, m2) => narrow_run tbl m2 (prune_candidates vecs cands) rest

/-- The outer `for k in range(1, max_search_radius + 1)` loop of
`apply_next_swaps`. -/
def narrow_all_k (tbl : List ((P × P) × Nat)) (device_edges : List (P × P))
    (timeslices : List (List (L × L))) :
    QMap P L → Nat → Nat → Except Unit (Option (List (P × P)) × QMap P L)
  | m, _, 0 => Except.ok (none, m)
  | m, k, fuel + 1 =>
    match narrow_slices tbl m (get_edge_sets device_edges k) timeslices with
    | Except.error e => Except.error e
    | Except.ok (some S, m') => Except.ok (some S, m')
    | Except.ok (none, m') =>
      narrow_all_k tbl device_edges timeslices m' (k + 1) fuel

/-- The router state touched by swap insertion: the live mapping and the
physical edges of the SWAP operations appended to `self.physical_ops`. -/
structure RouterState (P L : Type) where
  m : QMap P L
  physical_ops : List (P × P)

/-- Embeds `_GreedyRouter.apply_swap`: update the mapping and append one SWAP per
edge to the output. -/
def apply_swap (st : RouterState P L) (physical_edges : List (P × P)) :
    RouterState P L :=
  { m := update_mapping st.m physical_edges
    physical_ops := st.physical_ops ++ physical_edges }

/-- Embeds `_GreedyRouter.swap_along_path`: one SWAP per consecutive pair of the
path. -/
def swap_along_path (st : RouterState P L) (path : List P) : RouterState P L :=
  (path.zip path.tail).foldl (fun s e => apply_swap s [e]) st

/-- The tail of `bring_farthest_pair_together`: split the shortest path at
`midpoint = max_distance // 2` and swap along both halves. -/
def swap_toward_midpoint (st : RouterState P L) (path : List P)
    (max_distance : Nat) : RouterState P L :=
  swap_along_path (swap_along_path st (path.take (max_distance / 2)))
    (path.drop (max_distance / 2))

/-- The selection of `bring_farthest_pair_together`: `max_distance =
min(distances)` (sic — the variable is named for the farthest pair but holds
the minimum) and `farthest_pairs = [pair for pair, d in zip(pairs, distances)
if d == max_distance]`. -/
def select_farthest_pairs {L : Type} (pairs : List (L × L))
    (distances : List Nat) : List (L × L) :=
  match distances.min? with
  | none => []
  | some max_distance =>
    ((pairs.zip distances).filter
      (fun pd => decide (pd.2 = max_distance))).map Prod.fst

/-- Embeds `_GreedyRouter.bring_farthest_pair_together`, with `random.choice`
injected as `pick` and `nx.shortest_path` injected as `shortest_path`.
`error` covers the `KeyError`/empty-input fatal paths. -/
def bring_farthest_pair_together (tbl : List ((P × P) × Nat))
    (pick : List (L × L) → Option (L × L)) (shortest_path : P → P → List P)
    (st : RouterState P L) (pairs : List (L × L)) :
    Except Unit (RouterState P L) :=
  match pairs.mapM (distance tbl st.m) with
  | none => Except.error ()
  | some distances =>
    match distances.min? with
    | none => Except.error ()
    | some max_distance =>
      match pick (select_farthest_pairs pairs distances) with
      | none => Except.error ()
      | some farthest_pair =>
        match st.m.ltp farthest_pair.1, st.m.ltp farthest_pair.2 with
        | some p, some q =>
          Except.ok (swap_toward_midpoint st (shortest_path p q) max_distance)
        | _, _ => Except.error ()

/-- Embeds `_GreedyRouter.apply_next_swaps`: search matching sizes `1 ..
max_search_radius`; apply the unique surviving candidate swap set if some size
narrows to one, otherwise fall back to `bring_farthest_pair_together` on the
first timeslice's logical edges. -/
def apply_next_swaps (tbl : List ((P × P) × Nat)) (device_edges : List (P × P))
    (max_search_radius : Nat) (pick : List (L × L) → Option (L × L))
    (shortest_path : P → P → List P) (st : RouterState P L)
    (timeslices : List (List (L × L))) : Except Unit (RouterState P L) :=
  match narrow_all_k tbl device_edges timeslices st.m 1 max_search_radius with
  | Except.error e => Except.error e
  | Except.ok (some S, m') => Except.ok (apply_swap { st with m := m' } S)
  | Except.ok (none, m') =>
    match timeslices with
    | [] => Except.error ()
    | ts0 :: _ =>
      bring_farthest_pair_together tbl pick shortest_path
        { st with m := m' } ts0

/-- Translation of a logical operation's qubits through `_log_to_phys`
(`self.log_to_phys(*logical_op.qubits)`); `none` models a `KeyError`. -/
def phys_operands (m : QMap P L) (op : List L) : Option (List P) :=
  op.mapM m.ltp

/-- Embeds `_GreedyRouter.acts_on_nonadjacent_qubits`: single-qubit operations are
always ready; otherwise the operation is blocked unless its physical qubits
form a device edge. -/
def acts_on_nonadjacent_qubits (device_edges : List (P × P)) (m : QMap P L)
    (op : List L) : Bool :=
  if op.length = 1 then false
  else
    match phys_operands m op with
    | some [a, b] => ! is_edge device_edges a b
    | _ => true

/-- The append loop of `_GreedyRouter.apply_possible_ops`: translate every
ready node's operation onto physical qubits. -/
def apply_possible_ops (m : QMap P L) (nodes : List (List L)) :
    Option (List (List P)) :=
  nodes.mapM (phys_operands m)

end Router

section Initialization

variable {P L : Type} [DecidableEq P] [DecidableEq L]

/-- The loop state of `get_initial_mapping`
(`cirq/contrib/routing/initialization.py`): the insertion-ordered dictionary
`mapping` from physical to logical qubits, and the set of still-unplaced
logical vertices. -/
structure PlacementState (P L : Type) where
  mapping : List (P × L)
  unplaced : List L

/-- Embeds `placed_vertices = set(mapping.values())` (as the list of values). -/
def placed_vertices (st : PlacementState P L) : List L :=
  st.mapping.map Prod.snd

/-- The key list of the mapping dictionary. -/
def keys_of (st : PlacementState P L) : List P :=
  st.mapping.map Prod.fst

/-- Embeds `nums_placed_neighbors`: each unplaced vertex paired with its number of
already-placed neighbors in the logical interaction graph. -/
def nums_placed (logical_neighbors : L → List L) (st : PlacementState P L) :
    List (L × Nat) :=
  st.unplaced.map (fun v =>
    (v, ((logical_neighbors v).filter
      (fun w => decide (w ∈ placed_vertices st))).length))

/-- Embeds `candidates`: the unplaced vertices achieving the maximal placed-neighbor
count. -/
def candidates_of (logical_neighbors : L → List L) (st : PlacementState P L)
    (max_num : Nat) : List L :=
  ((nums_placed logical_neighbors st).filter
    (fun vn => decide (vn.2 = max_num))).map Prod.fst

/-- Embeds `border`: the device sites adjacent to a used site and not themselves
used. -/
def border_of (device_neighbors : P → List P) (st : PlacementState P L) :
    List P :=
  ((((keys_of st).map device_neighbors).flatten).filter
    (fun q => decide (¬ q ∈ keys_of st))).dedup

/-- Embeds `total_distances`: for every `(candidate, border site)` pair, the sum of
physical distances from the border site to every used site. -/
def total_distances_of (logical_neighbors : L → List L)
    (device_neighbors : P → List P) (pdist : P → P → Nat)
    (st : PlacementState P L) (max_num : Nat) : List ((L × P) × Nat) :=
  ((candidates_of logical_neighbors st max_num).map (fun l =>
    (border_of device_neighbors st).map (fun p =>
      ((l, p), ((keys_of st).map (fun pp => pdist p pp)).sum)))).flatten

/-- Embeds `best_candidates`: the `(candidate, border site)` pairs maximizing the
total distance. -/
def best_candidates_of (logical_neighbors : L → List L)
    (device_neighbors : P → List P) (pdist : P → P → Nat)
    (st : PlacementState P L) (max_num max_total_distance : Nat) :
    List (L × P) :=
  ((total_distances_of logical_neighbors device_neighbors pdist st
    max_num).filter (fun x => decide (x.2 = max_total_distance))).map Prod.fst

/-- One iteration of the `while len(unplaced_vertices)` loop of
`get_initial_mapping`.  The graph neighborhoods of the logical interaction
graph and the device graph, the `physical_distances` table (total here; a
missing key is fatal in the source) and `random.choice` (`pick`) are
parameters.  `none` models the fatal paths: `max()` over an empty sequence
(e.g. an empty border) or a failing choice. -/
def place_one (logical_neighbors : L → List L) (device_neighbors : P → List P)
    (pdist : P → P → Nat) (pick : List (L × P) → Option (L × P))
    (st : PlacementState P L) : Option (PlacementState P L) :=
  match ((nums_placed logical_neighbors st).map Prod.snd).max? with
  | none => none
  | some max_num =>
    match ((total_distances_of logical_neighbors device_neighbors pdist st
      max_num).map Prod.snd).max? with
    | none => none
    | some max_total_distance =>
      match pick (best_candidates_of logical_neighbors device_neighbors pdist
        st max_num max_total_distance) with
      | none => none
      | some lp =>
        some { mapping := st.mapping ++ [(lp.2, lp.1)]
               unplaced := st.unplaced.erase lp.1 }

/-- The full placement loop, with fuel bounding the number of iterations
(each successful iteration places one vertex). -/
def place_all (logical_neighbors : L → List L) (device_neighbors : P → List P)
    (pdist : P → P → Nat) (pick : List (L × P) → Option (L × P)) :
    Nat → PlacementState P L → Option (List (P × L))
  | 0, st =>
    match st.unplaced with
    | [] => some st.mapping
    | _ => none
  | fuel + 1, st =>
    match st.unplaced with
    | [] => some st.mapping
    | _ =>
      (place_one logical_neighbors device_neighbors pdist pick st).bind
        (place_all logical_neighbors device_neighbors pdist pick fuel)

/-- Embeds `get_initial_mapping(logical_graph, device_graph)`: seed the mapping with
the two betweenness-centrality centers (the centrality computation lives in
`networkx` and is abstracted into the `frontier_center` / `device_center`
parameters), then run the placement loop until every logical vertex is
placed. -/
def get_initial_mapping (logical_neighbors : L → List L)
    (device_neighbors : P → List P) (pdist : P → P → Nat)
    (pick : List (L × P) → Option (L × P)) (frontier_center : L)
    (device_center : P) (logical_vertices : List L) :
    Option (List (P × L)) :=
  place_all logical_neighbors device_neighbors pdist pick
    logical_vertices.length
    { mapping := [(device_center, frontier_center)]
      unplaced := logical_vertices.erase frontier_center }

end Initialization

section Instances

instance instDecEqQMap {P L : Type} [DecidableEq P] [DecidableEq L]
    [Fintype P] [Fintype L] : DecidableEq (QMap P L) := fun m m' =>
  decidable_of_iff ((∀ p, m.ptl p = m'.ptl p) ∧ (∀ l, m.ltp l = m'.ltp l)) (by
    constructor
    · rintro ⟨h1, h2⟩
      cases m; cases m'
      simp only [QMap.mk.injEq]
      exact ⟨funext h1, funext h2⟩
    · rintro rfl
      exact ⟨fun _ => rfl, fun _ => rfl⟩)

instance instDecEqRouterState {P L : Type} [DecidableEq P] [DecidableEq L]
    [Fintype P] [Fintype L] : DecidableEq (RouterState P L) := fun s s' =>
  decidable_of_iff (s.m = s'.m ∧ s.physical_ops = s'.physical_ops) (by
    constructor
    · rintro ⟨h1, h2⟩
      cases s; cases s'
      simp only [RouterState.mk.injEq]
      exact ⟨h1, h2⟩
    · rintro rfl
      exact ⟨rfl, rfl⟩)

instance instDecAssertConsistency {P L : Type} [DecidableEq P] [DecidableEq L]
    [Fintype P] [Fintype L] (m : QMap P L) :
    Decidable (assert_mapping_consistency m) := by
  unfold assert_mapping_consistency
  infer_instance

instance instDecCoherent {P L : Type} [DecidableEq P] [DecidableEq L]
    [Fintype P] [Fintype L] (m : QMap P L) : Decidable (Coherent m) := by
  unfold Coherent
  infer_instance

instance instDecFullBijection {P L : Type} [DecidableEq P] [DecidableEq L]
    [Fintype P] [Fintype L] (m : QMap P L) : Decidable (FullBijection m) := by
  unfold FullBijection
  infer_instance

instance instDecEqExceptOf {ε α : Type} [DecidableEq ε] [DecidableEq α] :
    DecidableEq (Except ε α) := fun x y =>
  match x, y with
  | Except.error a, Except.error b =>
    decidable_of_iff (a = b) (by
      constructor
      · rintro rfl; rfl
      · intro h; cases h; rfl)
  | Except.ok a, Except.ok b =>
    decidable_of_iff (a = b) (by
      constructor
      · rintro rfl; rfl
      · intro h; cases h; rfl)
  | Except.error _, Except.ok _ => isFalse (by intro h; cases h)
  | Except.ok _, Except.error _ => isFalse (by intro h; cases h)

end Instances

section Fixtures

/-! Concrete instances used to settle individual claims.  Qubits are `Fin n`
so that every property below is decidable. -/

/-- C1/C5 degenerate caller-supplied initial mapping: two physical sites, one
logical qubit, `initial_mapping = {A: x, B: x}` (a Python dict may repeat
values).  With site iteration order `[0, 1]` the rebuilt `_log_to_phys` sends
`x` to site `1`. -/
def degenerate_mapping : QMap (Fin 2) (Fin 1) :=
  set_initial_mapping [0, 1] (fun _ => some 0)

/-- The same degenerate initial mapping with site iteration order `[1, 0]`
(the device-graph node order is insertion order in `networkx`), so the rebuilt
`_log_to_phys` sends `x` to site `0` while both slots hold `x`. -/
def degenerate_mapping' : QMap (Fin 2) (Fin 1) :=
  set_initial_mapping [1, 0] (fun _ => some 0)

/-- A two-site, two-qubit identity initial mapping. -/
def id2_mapping : QMap (Fin 2) (Fin 2) :=
  set_initial_mapping [0, 1] (fun p => some p)

/-- C3 device: the 6-site caterpillar `0-1-2-3` with leaves `4` (on `1`) and
`5` (on `2`).  Connected, as many sites as logical operands. -/
def c3_device_edges : List (Fin 6 × Fin 6) := [(0, 1), (1, 2), (2, 3), (1, 4), (2, 5)]

def c3_nodes : List (Fin 6) := [0, 1, 2, 3, 4, 5]

def c3_tbl : List ((Fin 6 × Fin 6) × Nat) :=
  physical_distances c3_device_edges c3_nodes

/-- C3 circuit timeslices: first layer operations on logical pairs
`(0,1), (2,3), (4,5)`, second layer on `(1,2), (3,4)` (each second-layer
operation shares a qubit with a first-layer one, as a `CircuitDag` of a
five-operation circuit produces). -/
def c3_timeslices : List (List (Fin 6 × Fin 6)) :=
  [[(0, 1), (2, 3), (4, 5)], [(1, 2), (3, 4)]]

/-- C3 initial mapping: logical qubits `0..5` on sites `0, 2, 3, 1, 5, 4`. -/
def c3_m1 : QMap (Fin 6) (Fin 6) :=
  set_initial_mapping c3_nodes (fun p =>
    (([((0 : Fin 6), (0 : Fin 6)), (2, 1), (3, 2), (1, 3), (5, 4), (4, 5)].find?
      (fun x => decide (x.1 = p))).map Prod.snd))

/-- The mapping after swapping physical edge `(1, 4)` in `c3_m1`: logical
qubits `0..5` on sites `0, 2, 3, 4, 5, 1`. -/
def c3_m2 : QMap (Fin 6) (Fin 6) :=
  set_initial_mapping c3_nodes (fun p =>
    (([((0 : Fin 6), (0 : Fin 6)), (2, 1), (3, 2), (4, 3), (5, 4), (1, 5)].find?
      (fun x => decide (x.1 = p))).map Prod.snd))

/-- An arbitrary tie-break choice (never consulted on the C3 run). -/
def head_pick {α : Type} (xs : List α) : Option α := xs.head?

/-- An arbitrary shortest-path oracle (never consulted on the C3 run). -/
def c3_sp : Fin 6 → Fin 6 → List (Fin 6) := fun _ _ => []

/-- C6 device: the 6-site path. -/
def c6_device_edges : List (Fin 6 × Fin 6) := [(0, 1), (1, 2), (2, 3), (3, 4), (4, 5)]

def c6_tbl : List ((Fin 6 × Fin 6) × Nat) :=
  physical_distances c6_device_edges [0, 1, 2, 3, 4, 5]

/-- C6 mapping: logical `0,1,2,3` on sites `0,2,1,4`, so the pair `(0,1)` is
at physical distance 2 and the pair `(2,3)` at physical distance 3. -/
def c6_m : QMap (Fin 6) (Fin 4) :=
  set_initial_mapping [0, 1, 2, 3, 4, 5] (fun p =>
    (([((0 : Fin 6), (0 : Fin 4)), (2, 1), (1, 2), (4, 3)].find?
      (fun x => decide (x.1 = p))).map Prod.snd))

/-- C6 frontier logical edges. -/
def c6_pairs : List (Fin 4 × Fin 4) := [(0, 1), (2, 3)]

/-- C7 device: the 4-site path. -/
def c7_device_edges : List (Fin 4 × Fin 4) := [(0, 1), (1, 2), (2, 3)]

def c7_tbl : List ((Fin 4 × Fin 4) × Nat) :=
  physical_distances c7_device_edges [0, 1, 2, 3]

/-- C7 emptying instance: two logical qubits on sites `0` and `2` of the path,
one frontier operation on the pair. -/
def c7_m : QMap (Fin 4) (Fin 2) :=
  set_initial_mapping [0, 1, 2, 3] (fun p =>
    if p = 0 then some 0 else if p = 2 then some 1 else none)

def c7_timeslice : List (Fin 2 × Fin 2) := [(0, 1)]

/-- C7 witness instance: four logical qubits identically placed on the path,
frontier pairs `(0,2)` and `(1,3)`; the swap on the middle edge is the unique
undominated candidate. -/
def c7w_m : QMap (Fin 4) (Fin 4) :=
  set_initial_mapping [0, 1, 2, 3] (fun p => some (Fin.cast rfl p))

def c7w_timeslices : List (List (Fin 4 × Fin 4)) := [[(0, 2), (1, 3)]]

/-- C8 device: two isolated sites, no edges. -/
def c8_device_edges : List (Fin 2 × Fin 2) := []

def c8_tbl : List ((Fin 2 × Fin 2) × Nat) :=
  physical_distances c8_device_edges [0, 1]

/-- C8 mapping: the two interacting logical qubits on the two isolated
sites. -/
def c8_m : QMap (Fin 2) (Fin 2) :=
  set_initial_mapping [0, 1] (fun p => some (Fin.cast rfl p))

def c8_timeslices : List (List (Fin 2 × Fin 2)) := [[(0, 1)]]

def c8_sp : Fin 2 → Fin 2 → List (Fin 2) := fun _ _ => []

end Fixtures

section MappingTheorems

variable {P L : Type} [DecidableEq P] [DecidableEq L]

theorem coherent_ptl_inj {m : QMap P L} (hm : Coherent m) {p q : P} {l : L}
    (hp : m.ptl p = some l) (hq : m.ptl q = some l) : p = q := by
  have h1 := hm p l hp
  have h2 := hm q l hq
  rw [h1] at h2
  exact Option.some_injective _ h2

theorem coherent_update_edge {m : QMap P L} (hm : Coherent m) {e : P × P}
    (he : e.1 ≠ e.2) : Coherent (update_edge m e) := by
  rcases e with ⟨p0, p1⟩
  intro p l hp
  simp only [update_edge] at hp ⊢
  by_cases h2 : p = p1
  · rw [if_pos h2] at hp
    rw [if_pos hp, h2]
  · rw [if_neg h2] at hp
    by_cases h1 : p = p0
    · rw [if_pos h1] at hp
      have hne : ¬ (m.ptl p0 = some l) := by
        intro h0
        exact he (coherent_ptl_inj hm h0 hp)
      rw [if_neg hne, if_pos hp, h1]
    · rw [if_neg h1] at hp
      have hne0 : ¬ (m.ptl p0 = some l) := by
        intro h0
        exact h1 (coherent_ptl_inj hm hp h0)
      have hne1 : ¬ (m.ptl p1 = some l) := by
        intro h0
        exact h2 (coherent_ptl_inj hm hp h0)
      rw [if_neg hne0, if_neg hne1]
      exact hm p l hp

theorem fullBijection_update_edge {m : QMap P L} (hm : FullBijection m)
    {e : P × P} (he : e.1 ≠ e.2) : FullBijection (update_edge m e) := by
  obtain ⟨⟨htot, hback⟩, hco⟩ := hm
  refine ⟨⟨?_, ?_⟩, coherent_update_edge hco he⟩
  · intro l
    rcases e with ⟨p0, p1⟩
    simp only [update_edge]
    by_cases h0 : m.ptl p0 = some l
    · rw [if_pos h0]; rfl
    · rw [if_neg h0]
      by_cases h1 : m.ptl p1 = some l
      · rw [if_pos h1]; rfl
      · rw [if_neg h1]; exact htot l
  · intro l p hlp
    rcases e with ⟨p0, p1⟩
    simp only [update_edge] at hlp ⊢
    by_cases h0 : m.ptl p0 = some l
    · rw [if_pos h0] at hlp
      have hp : p = p1 := (Option.some_injective _ hlp).symm
      rw [hp, if_pos rfl]
      exact h0
    · rw [if_neg h0] at hlp
      by_cases h1 : m.ptl p1 = some l
      · rw [if_pos h1] at hlp
        have hp : p = p0 := (Option.some_injective _ hlp).symm
        subst hp
        rw [if_neg (show ¬ (p = p1) from he), if_pos rfl]
        exact h1
      · rw [if_neg h1] at hlp
        have hmp := hback l p hlp
        have hp1 : ¬ (p = p1) := by
          intro h; rw [h] at hmp; exact h1 hmp
        have hp0 : ¬ (p = p0) := by
          intro h; rw [h] at hmp; exact h0 hmp
        rw [if_neg hp1, if_neg hp0]
        exact hmp

theorem fullBijection_update_mapping {es : List (P × P)} :
    ∀ {m : QMap P L}, FullBijection m → (∀ e ∈ es, e.1 ≠ e.2) →
      FullBijection (update_mapping m es) := by
  induction es with
  | nil => intro m hm _; exact hm
  | cons e es ih =>
    intro m hm hes
    have he : e.1 ≠ e.2 := hes e (List.mem_cons_self e es)
    exact ih (fullBijection_update_edge hm he)
      (fun f hf => hes f (List.mem_cons_of_mem e hf))

theorem QMap.ext {m m' : QMap P L} (h1 : ∀ p, m.ptl p = m'.ptl p)
    (h2 : ∀ l, m.ltp l = m'.ltp l) : m = m' := by
  cases m; cases m'
  simp only [QMap.mk.injEq]
  exact ⟨funext h1, funext h2⟩

theorem update_edge_ptl (m : QMap P L) (p0 p1 p : P) :
    (update_edge m (p0, p1)).ptl p =
      if p = p1 then m.ptl p0 else if p = p0 then m.ptl p1 else m.ptl p := rfl

theorem update_edge_ltp (m : QMap P L) (p0 p1 : P) (l : L) :
    (update_edge m (p0, p1)).ltp l =
      if m.ptl p0 = some l then some p1 else
        if m.ptl p1 = some l then some p0 else m.ltp l := rfl

/-- Applying the SWAP bookkeeping twice on the same physical edge restores a
mapping whose slots point back at their reverse-lookup entries. -/
theorem update_edge_involutive {m : QMap P L} (hm : Coherent m) {p0 p1 : P}
    (he : p0 ≠ p1) : update_edge (update_edge m (p0, p1)) (p0, p1) = m := by
  have hf : (update_edge m (p0, p1)).ptl p0 = m.ptl p1 := by
    rw [update_edge_ptl, if_neg he, if_pos rfl]
  have hs : (update_edge m (p0, p1)).ptl p1 = m.ptl p0 := by
    rw [update_edge_ptl, if_pos rfl]
  refine QMap.ext (fun p => ?_) (fun l => ?_)
  · rw [update_edge_ptl, hf, hs]
    by_cases h1 : p = p1
    · rw [if_pos h1, h1]
    · rw [if_neg h1]
      by_cases h0 : p = p0
      · rw [if_pos h0, h0]
      · rw [if_neg h0, update_edge_ptl, if_neg h1, if_neg h0]
  · rw [update_edge_ltp, hf, hs]
    by_cases h1 : m.ptl p1 = some l
    · rw [if_pos h1]
      exact (hm p1 l h1).symm
    · rw [if_neg h1]
      by_cases h0 : m.ptl p0 = some l
      · rw [if_pos h0]
        exact (hm p0 l h0).symm
      · rw [if_neg h0, update_edge_ltp, if_neg h0, if_neg h1]

theorem update_edge_comm {m : QMap P L} (hm : Coherent m) {e f : P × P}
    (hef : edges_disjoint e f) :
    update_edge (update_edge m e) f = update_edge (update_edge m f) e := by
  rcases e with ⟨p0, p1⟩
  rcases f with ⟨q0, q1⟩
  obtain ⟨h00, h01, h10, h11⟩ := hef
  have ef0 : (update_edge m (p0, p1)).ptl q0 = m.ptl q0 := by
    rw [update_edge_ptl, if_neg (Ne.symm h10), if_neg (Ne.symm h00)]
  have ef1 : (update_edge m (p0, p1)).ptl q1 = m.ptl q1 := by
    rw [update_edge_ptl, if_neg (Ne.symm h11), if_neg (Ne.symm h01)]
  have fe0 : (update_edge m (q0, q1)).ptl p0 = m.ptl p0 := by
    rw [update_edge_ptl, if_neg h01, if_neg h00]
  have fe1 : (update_edge m (q0, q1)).ptl p1 = m.ptl p1 := by
    rw [update_edge_ptl, if_neg h11, if_neg h10]
  refine QMap.ext (fun p => ?_) (fun l => ?_)
  · rw [update_edge_ptl, ef0, ef1, update_edge_ptl, update_edge_ptl, fe0, fe1,
      update_edge_ptl]
    by_cases a1 : p = q1
    · rw [if_pos a1, if_neg (show ¬ (p = p1) by rw [a1]; exact Ne.symm h11),
        if_neg (show ¬ (p = p0) by rw [a1]; exact Ne.symm h01), if_pos a1]
    · rw [if_neg a1]
      by_cases a0 : p = q0
      · rw [if_pos a0, if_neg (show ¬ (p = p1) by rw [a0]; exact Ne.symm h10),
          if_neg (show ¬ (p = p0) by rw [a0]; exact Ne.symm h00),
          if_neg a1, if_pos a0]
      · rw [if_neg a0]
        by_cases b1 : p = p1
        · rw [if_pos b1, if_pos b1]
        · rw [if_neg b1, if_neg b1]
          by_cases b0 : p = p0
          · rw [if_pos b0, if_pos b0]
          · rw [if_neg b0, if_neg b0, if_neg a1, if_neg a0]
  · rw [update_edge_ltp, ef0, ef1, update_edge_ltp, update_edge_ltp, fe0, fe1,
      update_edge_ltp]
    by_cases hq0 : m.ptl q0 = some l
    · have hp0 : ¬ (m.ptl p0 = some l) :=
        fun h => h00 (coherent_ptl_inj hm h hq0)
      have hp1 : ¬ (m.ptl p1 = some l) :=
        fun h => h10 (coherent_ptl_inj hm h hq0)
      rw [if_pos hq0, if_neg hp0, if_neg hp1, if_pos hq0]
    · by_cases hq1 : m.ptl q1 = some l
      · have hp0 : ¬ (m.ptl p0 = some l) :=
          fun h => h01 (coherent_ptl_inj hm h hq1)
        have hp1 : ¬ (m.ptl p1 = some l) :=
          fun h => h11 (coherent_ptl_inj hm h hq1)
        rw [if_neg hq0, if_pos hq1, if_neg hp0, if_neg hp1, if_neg hq0,
          if_pos hq1]
      · rw [if_neg hq0, if_neg hq1]
        by_cases hp0 : m.ptl p0 = some l
        · rw [if_pos hp0, if_pos hp0]
        · rw [if_neg hp0, if_neg hp0]
          by_cases hp1 : m.ptl p1 = some l
          · rw [if_pos hp1, if_pos hp1]
          · rw [if_neg hp1, if_neg hp1, if_neg hq0, if_neg hq1]

theorem coherent_update_mapping :
    ∀ (es : List (P × P)) {m : QMap P L}, Coherent m →
      (∀ e ∈ es, e.1 ≠ e.2) → Coherent (update_mapping m es) := by
  intro es
  induction es with
  | nil => intro m hm _; exact hm
  | cons e es ih =>
    intro m hm hes
    exact ih (coherent_update_edge hm (hes e (List.mem_cons_self e es)))
      (fun f hf => hes f (List.mem_cons_of_mem e hf))

theorem update_mapping_push {e : P × P} :
    ∀ (fs : List (P × P)) (m : QMap P L), Coherent m →
      (∀ f ∈ fs, edges_disjoint e f) → (∀ f ∈ fs, f.1 ≠ f.2) →
      update_mapping (update_edge m e) fs = update_edge (update_mapping m fs) e := by
  intro fs
  induction fs with
  | nil => intro m _ _ _; rfl
  | cons f fs ih =>
    intro m hm hdisj hfst
    show update_mapping (update_edge (update_edge m e) f) fs = _
    rw [update_edge_comm hm (hdisj f (List.mem_cons_self f fs))]
    rw [ih (update_edge m f)
      (coherent_update_edge hm (hfst f (List.mem_cons_self f fs)))
      (fun g hg => hdisj g (List.mem_cons_of_mem f hg))
      (fun g hg => hfst g (List.mem_cons_of_mem f hg))]
    rfl

/-- The heart of the measurement-idempotence property: applying the SWAP
bookkeeping of a pairwise-disjoint swap set twice restores a coherent
mapping exactly. -/
theorem update_mapping_twice :
    ∀ (swaps : List (P × P)) (m : QMap P L), Coherent m →
      swaps.Pairwise edges_disjoint → (∀ e ∈ swaps, e.1 ≠ e.2) →
      update_mapping (update_mapping m swaps) swaps = m := by
  intro swaps
  induction swaps with
  | nil => intro m _ _ _; rfl
  | cons e es ih =>
    intro m hm hpw hep
    have he : e.1 ≠ e.2 := hep e (List.mem_cons_self e es)
    have hdisj : ∀ f ∈ es, edges_disjoint e f :=
      (List.pairwise_cons.mp hpw).1
    have hesp : ∀ f ∈ es, f.1 ≠ f.2 :=
      fun f hf => hep f (List.mem_cons_of_mem e hf)
    show update_mapping
      (update_edge (update_mapping (update_edge m e) es) e) es = m
    rw [update_mapping_push es m hm hdisj hesp,
      update_edge_involutive (coherent_update_mapping es hm hesp) he]
    exact ih m hm (List.pairwise_cons.mp hpw).2 hesp

theorem getLast?_of_all_eq {α : Type} {xs : List α} {a : α} (hne : xs ≠ [])
    (hall : ∀ x ∈ xs, x = a) : xs.getLast? = some a := by
  induction xs with
  | nil => exact absurd rfl hne
  | cons x xs ih =>
    cases hxs : xs with
    | nil =>
      have hx : x = a := hall x (List.mem_cons_self x xs)
      subst hxs
      rw [hx]
      rfl
    | cons y ys =>
      subst hxs
      rw [List.getLast?_cons_cons]
      exact ih (by simp) (fun z hz => hall z (List.mem_cons_of_mem x hz))

/-- The function `set_initial_mapping` produces a complete bijection whenever the supplied
initial mapping hits every logical qubit exactly once. -/
theorem fullBijection_set_initial_mapping (physical_qubits : List P)
    (im : P → Option L)
    (hcov : ∀ l : L, ∃ p ∈ physical_qubits, im p = some l)
    (hinj : ∀ p q l, im p = some l → im q = some l → p = q) :
    FullBijection (set_initial_mapping physical_qubits im) := by
  have hltp : ∀ (l : L) (p : P), im p = some l →
      (set_initial_mapping physical_qubits im).ltp l = some p := by
    intro l p hp
    show (physical_qubits.filter (fun q => decide (im q = some l))).getLast?
      = some p
    apply getLast?_of_all_eq
    · obtain ⟨p', hp'mem, hp'⟩ := hcov l
      have hmem : p' ∈ physical_qubits.filter
          (fun q => decide (im q = some l)) :=
        List.mem_filter.mpr ⟨hp'mem, by simp [hp']⟩
      intro hnil
      rw [hnil] at hmem
      cases hmem
    · intro x hx
      have hx' := List.mem_filter.mp hx
      have hxl : im x = some l := of_decide_eq_true hx'.2
      exact hinj x p l hxl hp
  refine ⟨⟨?_, ?_⟩, ?_⟩
  · intro l
    obtain ⟨p, hpmem, hp⟩ := hcov l
    rw [hltp l p hp]
    rfl
  · intro l p hlp
    obtain ⟨p', hp'mem, hp'⟩ := hcov l
    have h := hltp l p' hp'
    rw [h] at hlp
    have hpp : p' = p := Option.some_injective _ hlp
    subst hpp
    exact hp'
  · intro p l hp
    exact hltp l p hp

/-- C1 counterexample: the degenerate caller-supplied initial mapping
`{A: x, B: x}` (two sites, one logical qubit) passes the code's
`_assert_mapping_consistency` check — so the routing run proceeds — yet the
resulting Mapping is not a bijection: both physical slots hold `x`, and the
reverse lookup of slot `0` does not point back at it.  This refutes the claim
that after initialization the Mapping is always a complete bijection with
mutually inverse dictionaries. -/
theorem c1_counterexample :
    assert_mapping_consistency degenerate_mapping ∧
      ¬ FullBijection degenerate_mapping := by decide

/-- C1 (amended): if the initial mapping hits every logical operand exactly
once (as mutual-inverse bijectivity requires, and as any mapping produced by
`get_initial_mapping` or any injective caller-supplied mapping does), then
after initialization and after any sequence of SWAP updates on physical edges
with distinct endpoints — `apply_possible_ops` never touches the mapping —
the Mapping is a complete bijection: every logical qubit is mapped, the two
dictionaries are mutual inverses on the in-use domain, and the key sets are
the full logical and physical sets. -/
theorem c1_mapping_full_bijection (physical_qubits : List P)
    (im : P → Option L)
    (hcov : ∀ l : L, ∃ p ∈ physical_qubits, im p = some l)
    (hinj : ∀ p q l, im p = some l → im q = some l → p = q)
    (swaps : List (P × P)) (hsw : ∀ e ∈ swaps, e.1 ≠ e.2) :
    FullBijection
      (update_mapping (set_initial_mapping physical_qubits im) swaps) :=
  fullBijection_update_mapping
    (fullBijection_set_initial_mapping physical_qubits im hcov hinj) hsw

theorem c1_mapping_full_bijection_witness :
    FullBijection (update_mapping id2_mapping [(0, 1)]) :=
  c1_mapping_full_bijection [0, 1] (fun p => some p) (by decide) (by decide)
    [(0, 1)] (by decide)

/-- C5 counterexample: a Mapping state that passes the code's consistency
assertion (it arises from the caller-supplied initial mapping `{A: x, B: x}`
with device node order `[B, A]`), together with the single-edge candidate swap
set `{(A, B)}` (trivially pairwise disjoint), on which `get_distance_vector`
does *not* restore the Mapping: the `_log_to_phys` entry of `x` moves from
site `0` to site `1`.  This refutes the claim for arbitrary Mapping states. -/
theorem c5_counterexample :
    assert_mapping_consistency degenerate_mapping' ∧
      (get_distance_vector [] degenerate_mapping' [] [(0, 1)]).2
        ≠ degenerate_mapping' := by decide

/-- C5 (amended): for every Mapping state satisfying the mutual-inverse
half of the bijection invariant (which holds throughout any routing run that
starts from a bijective initial mapping, by C1) and every candidate swap set
of pairwise-disjoint device edges, `get_distance_vector` leaves both
dictionaries value-for-value identical to their state before the call. -/
theorem c5_distance_vector_restores_mapping (tbl : List ((P × P) × Nat))
    (m : QMap P L) (logical_edges : List (L × L)) (swaps : List (P × P))
    (hm : Coherent m) (hdisj : swaps.Pairwise edges_disjoint)
    (hep : ∀ e ∈ swaps, e.1 ≠ e.2) :
    (get_distance_vector tbl m logical_edges swaps).2 = m :=
  update_mapping_twice swaps m hm hdisj hep

theorem c5_distance_vector_restores_mapping_witness :
    (get_distance_vector [] id2_mapping [] [(0, 1)]).2 = id2_mapping :=
  c5_distance_vector_restores_mapping [] id2_mapping [] [(0, 1)]
    (by decide) (by decide) (by decide)

end MappingTheorems

section DominanceTheorems

theorem vec_all_ge_iff {v w : List Nat} (h : w.length = v.length) :
    vec_all_ge v w = true ↔ ∀ t, t < v.length → w.getD t 0 ≤ v.getD t 0 := by
  unfold vec_all_ge
  rw [List.all_eq_true]
  constructor
  · intro hall t ht
    have hz : t < (v.zip w).length := by
      rw [List.length_zip, h]
      omega
    have hmem : (v.zip w).get ⟨t, hz⟩ ∈ v.zip w := List.get_mem _ _ _
    have hp := hall _ hmem
    rw [List.get_eq_getElem, List.getElem_zip] at hp
    have hle := of_decide_eq_true hp
    rw [List.getD_eq_getElem v 0 ht, List.getD_eq_getElem w 0 (by omega)]
    exact hle
  · intro hpt ab hab
    obtain ⟨t, htl, hteq⟩ := List.mem_iff_getElem.mp hab
    rw [List.getElem_zip] at hteq
    have htv : t < v.length := by
      rw [List.length_zip] at htl
      omega
    have hle := hpt t htv
    rw [List.getD_eq_getElem v 0 htv,
      List.getD_eq_getElem w 0 (by rw [h]; omega)] at hle
    rw [← hteq]
    exact decide_eq_true hle

theorem mem_others_at {vectors : List (List Nat)} {i : Nat} {w : List Nat}
    (hi : i < vectors.length) :
    w ∈ others_at vectors i ↔
      ∃ j, j < vectors.length ∧ j ≠ i ∧ vectors.getD j [] = w := by
  unfold others_at
  rw [List.mem_append]
  constructor
  · rintro (h | h)
    · obtain ⟨k, hk, hke⟩ := List.mem_iff_getElem.mp h
      have hkt : k < i := by
        rw [List.length_take] at hk
        omega
      refine ⟨k, by omega, by omega, ?_⟩
      rw [List.getD_eq_getElem _ _ (by omega : k < vectors.length)]
      rw [List.getElem_take] at hke
      exact hke
    · obtain ⟨k, hk, hke⟩ := List.mem_iff_getElem.mp h
      have hkl : i + 1 + k < vectors.length := by
        rw [List.length_drop] at hk
        omega
      refine ⟨i + 1 + k, hkl, by omega, ?_⟩
      rw [List.getD_eq_getElem _ _ hkl]
      rw [List.getElem_drop] at hke
      exact hke
  · rintro ⟨j, hj, hji, hjw⟩
    by_cases hcase : j < i
    · left
      rw [List.mem_iff_getElem]
      refine ⟨j, by rw [List.length_take]; omega, ?_⟩
      rw [List.getElem_take]
      rw [List.getD_eq_getElem _ _ hj] at hjw
      exact hjw
    · right
      obtain ⟨k, rfl⟩ : ∃ k, j = i + 1 + k := ⟨j - (i + 1), by omega⟩
      rw [List.mem_iff_getElem]
      refine ⟨k, by rw [List.length_drop]; omega, ?_⟩
      rw [List.getElem_drop]
      rw [List.getD_eq_getElem _ _ hj] at hjw
      exact hjw

/-- C4: for equal-length numeric vectors, `_get_dominated_indices` returns
exactly the indices `i` such that some vector at a different index `j`
satisfies `vectors[j][t] <= vectors[i][t]` for every coordinate `t`.  (In
particular two equal vectors dominate each other, so both their indices are
returned — see the witness.) -/
theorem c4_dominated_indices_exact (vectors : List (List Nat)) (n : Nat)
    (hlen : ∀ v ∈ vectors, v.length = n) (i : Nat) :
    i ∈ get_dominated_indices vectors ↔
      i < vectors.length ∧ ∃ j, j < vectors.length ∧ j ≠ i ∧
        ∀ t, t < n →
          (vectors.getD j []).getD t 0 ≤ (vectors.getD i []).getD t 0 := by
  unfold get_dominated_indices
  rw [List.mem_filter, List.mem_range]
  constructor
  · rintro ⟨hi, hany⟩
    rw [List.any_eq_true] at hany
    obtain ⟨w, hw, hge⟩ := hany
    obtain ⟨j, hj, hji, hjw⟩ := (mem_others_at hi).mp hw
    have hmemi : vectors.getD i [] ∈ vectors := by
      rw [List.getD_eq_getElem _ _ hi]
      exact List.getElem_mem _
    have hmemj : vectors.getD j [] ∈ vectors := by
      rw [List.getD_eq_getElem _ _ hj]
      exact List.getElem_mem _
    have hvi := hlen _ hmemi
    have hvj := hlen _ hmemj
    subst hjw
    have hpt := (vec_all_ge_iff (by rw [hvi, hvj])).mp hge
    refine ⟨hi, j, hj, hji, fun t ht => ?_⟩
    exact hpt t (by rw [hvi]; omega)
  · rintro ⟨hi, j, hj, hji, hpt⟩
    have hmemi : vectors.getD i [] ∈ vectors := by
      rw [List.getD_eq_getElem _ _ hi]
      exact List.getElem_mem _
    have hmemj : vectors.getD j [] ∈ vectors := by
      rw [List.getD_eq_getElem _ _ hj]
      exact List.getElem_mem _
    have hvi := hlen _ hmemi
    have hvj := hlen _ hmemj
    refine ⟨hi, ?_⟩
    rw [List.any_eq_true]
    refine ⟨vectors.getD j [], (mem_others_at hi).mpr ⟨j, hj, hji, rfl⟩, ?_⟩
    refine (vec_all_ge_iff (by rw [hvi, hvj])).mpr (fun t ht => ?_)
    exact hpt t (by rw [hvi] at ht; omega)

/-- C4 witness: on `[[1,2],[1,2],[3,3]]` the two equal vectors dominate each
other, so indices 0 and 1 are both returned. -/
theorem c4_dominated_indices_exact_witness :
    (0 ∈ get_dominated_indices [[1, 2], [1, 2], [3, 3]]) ∧
      (1 ∈ get_dominated_indices [[1, 2], [1, 2], [3, 3]]) :=
  ⟨(c4_dominated_indices_exact [[1, 2], [1, 2], [3, 3]] 2 (by decide) 0).mpr
      ⟨by decide, 1, by decide, by decide, by decide⟩,
    (c4_dominated_indices_exact [[1, 2], [1, 2], [3, 3]] 2 (by decide) 1).mpr
      ⟨by decide, 0, by decide, by decide, by decide⟩⟩

end DominanceTheorems

section RouterTheorems

variable {P L : Type} [DecidableEq P] [DecidableEq L]

theorem ready_two_qubit_op_on_edge (device_edges : List (P × P))
    (m : QMap P L) (op : List L) (pop : List P)
    (hready : acts_on_nonadjacent_qubits device_edges m op = false)
    (hlen : op.length = 2) (happ : phys_operands m op = some pop) :
    ∃ a b, pop = [a, b] ∧ is_edge device_edges a b = true := by
  unfold acts_on_nonadjacent_qubits at hready
  rw [if_neg (by omega : ¬ op.length = 1), happ] at hready
  rcases pop with _ | ⟨a, _ | ⟨b, _ | ⟨c, rest⟩⟩⟩
  · exact Bool.noConfusion hready
  · exact Bool.noConfusion hready
  · refine ⟨a, b, rfl, ?_⟩
    simpa using hready
  · exact Bool.noConfusion hready

theorem apply_possible_ops_zip (m : QMap P L) :
    ∀ (nodes : List (List L)) (phys : List (List P)),
      apply_possible_ops m nodes = some phys →
      ∀ lop pop, (lop, pop) ∈ nodes.zip phys → phys_operands m lop = some pop := by
  intro nodes
  induction nodes with
  | nil =>
    intro phys _ lop pop hmem
    simp at hmem
  | cons op rest ih =>
    intro phys happ lop pop hmem
    unfold apply_possible_ops at happ
    rw [List.mapM_cons] at happ
    cases hpo : phys_operands m op with
    | none => rw [hpo] at happ; simp at happ
    | some p0 =>
      rw [hpo] at happ
      cases hrest : List.mapM (phys_operands m) rest with
      | none => rw [hrest] at happ; simp at happ
      | some ps =>
        rw [hrest] at happ
        simp at happ
        subst happ
        rw [List.zip_cons_cons] at hmem
        rcases List.mem_cons.mp hmem with h | h
        · cases h
          exact hpo
        · exact ih ps hrest lop pop h

/-- C2: whenever `apply_possible_ops` translates a batch of ready operations
(every node returned by the blocked-scan satisfies
`acts_on_nonadjacent_qubits = false`, as the code asserts), every translated
operation with exactly two operands has physical operands forming a device
graph edge at the moment it is appended (the mapping is not mutated during
the append loop, so the guarding assertion never fails). -/
theorem c2_ops_on_device_edges (device_edges : List (P × P)) (m : QMap P L)
    (nodes : List (List L)) (phys : List (List P))
    (hready : ∀ op ∈ nodes,
      acts_on_nonadjacent_qubits device_edges m op = false)
    (happ : apply_possible_ops m nodes = some phys) :
    ∀ lop pop, (lop, pop) ∈ nodes.zip phys → lop.length = 2 →
      ∃ a b, pop = [a, b] ∧ is_edge device_edges a b = true := by
  intro lop pop hmem hlen
  have hlop : lop ∈ nodes := by
    have := List.of_mem_zip hmem
    exact this.1
  exact ready_two_qubit_op_on_edge device_edges m lop pop
    (hready lop hlop) hlen (apply_possible_ops_zip m nodes phys happ lop pop hmem)

theorem c2_ops_on_device_edges_witness :
    ∃ a b, [a, b] = [(0 : Fin 2), (1 : Fin 2)] ∧
      is_edge [((0 : Fin 2), (1 : Fin 2))] a b = true := by
  have h := c2_ops_on_device_edges [((0 : Fin 2), (1 : Fin 2))] id2_mapping
    [[(0 : Fin 2), 1]] [[(0 : Fin 2), 1]] (by decide) (by decide)
    [(0 : Fin 2), 1] [(0 : Fin 2), 1] (by decide) (by decide)
  obtain ⟨a, b, h1, h2⟩ := h
  exact ⟨a, b, h1 ▸ rfl, h2⟩

/-- C6, the code evaluated at a failing input: with the frontier pairs
`(0,1)` at physical distance 2 and `(2,3)` at physical distance 3, the
fallback's selection (`max_distance = min(distances)`, despite docstring and
variable names promising the farthest pair) returns the *closest* pair
`(0,1)` and never the farthest pair `(2,3)`. -/
theorem c6_fallback_selects_closest_pair :
    c6_pairs.mapM (distance c6_tbl c6_m) = some [2, 3] ∧
      select_farthest_pairs c6_pairs [2, 3] = [(0, 1)] ∧
      ¬ ((2, 3) ∈ select_farthest_pairs c6_pairs [2, 3]) := by decide

/-- C8: on a device graph with no edges, the distance index built from
`nx.shortest_path_length` holds no entry for the two distinct sites of the
interacting logical pair, and the routing step on a blocked two-qubit
operation ends in the fatal missing-key lookup inside
`_GreedyRouter.distance` (reached through the fallback, since there are no
candidate swap sets at all) instead of producing a swap network. -/
theorem c8_edgeless_device_fatal :
    lookup_distance c8_tbl 0 1 = none ∧
      distance c8_tbl c8_m ((0 : Fin 2), (1 : Fin 2)) = none ∧
      apply_next_swaps c8_tbl c8_device_edges 1 head_pick c8_sp
        ⟨c8_m, []⟩ c8_timeslices = Except.error () := by decide

/-- C3, a refuting run: on the connected 6-site caterpillar device (as many
sites as logical operands), with the five-operation circuit whose timeslice
layers are `c3_timeslices`, `max_search_radius = 1`, and the bijective initial
mapping `c3_m1`, every first-layer operation is blocked in both states
`c3_m1` and `c3_m2`, yet the swap-search step deterministically chooses the
single edge `(1, 4)` in either state, each time producing the other state.
`route` therefore alternates between the two states forever and never reaches
the done state (the remaining dependency graph never shrinks). -/
theorem c3_route_livelock :
    apply_next_swaps c3_tbl c3_device_edges 1 head_pick c3_sp ⟨c3_m1, []⟩
        c3_timeslices = Except.ok ⟨c3_m2, [(1, 4)]⟩ ∧
      apply_next_swaps c3_tbl c3_device_edges 1 head_pick c3_sp ⟨c3_m2, []⟩
        c3_timeslices = Except.ok ⟨c3_m1, [(1, 4)]⟩ ∧
      (∀ op ∈ [[(0 : Fin 6), 1], [2, 3], [4, 5]],
        acts_on_nonadjacent_qubits c3_device_edges c3_m1 op = true) ∧
      (∀ op ∈ [[(0 : Fin 6), 1], [2, 3], [4, 5]],
        acts_on_nonadjacent_qubits c3_device_edges c3_m2 op = true) ∧
      FullBijection c3_m1 := by decide

/-- C7 counterexample: a reachable pruning step that empties the candidate
set.  On the 4-site path with one frontier operation on two logical qubits
mapped to sites `0` and `2`, the three single-edge candidate swap sets have
distance vectors `[3], [1], [1]` (in the order `get_edge_sets` produces
them); the two tied vectors dominate each other and dominate the third, so
`prune_candidates` removes every candidate before any swap set is chosen. -/
theorem c7_counterexample :
    get_edge_sets c7_device_edges 1 ≠ [] ∧
      (compute_vectors c7_tbl c7_timeslice c7_m
        (get_edge_sets c7_device_edges 1)).1 = some [[3], [1], [1]] ∧
      prune_candidates [[3], [1], [1]] (get_edge_sets c7_device_edges 1)
        = [] := by decide

/-- C7 (amended): the pruning can empty the candidate set (see the
counterexample), but a swap set is only ever *chosen* when a pruning step of
the actual narrowing run leaves exactly one candidate: whenever the narrowing
loop started at `(m, cands)` returns a chosen swap set `S`, the timeslice
list splits as `pre ++ ts :: post` such that the loop state reached after
processing `pre` (the pruned candidate list `cands0` and threaded mapping
`m0`, as computed by `narrow_run`) prunes against the distance vectors of
`ts` to exactly the non-empty singleton `[S]` — so the candidate set at the
moment of choice is never empty.  Steps that empty the candidate set simply
fall through to later timeslices, larger matching sizes, or the fallback. -/
theorem c7_choice_from_singleton (tbl : List ((P × P) × Nat)) :
    ∀ (slices : List (List (L × L))) (m : QMap P L)
      (cands : List (List (P × P))) (S : List (P × P)) (m' : QMap P L),
      narrow_slices tbl m cands slices = Except.ok (some S, m') →
      ∃ (pre post : List (List (L × L))) (ts : List (L × L))
        (cands0 : List (List (P × P))) (m0 : QMap P L)
        (vecs : List (List Nat)),
        slices = pre ++ ts :: post ∧
          narrow_run tbl m cands pre = some (cands0, m0) ∧
          (compute_vectors tbl ts m0 cands0).1 = some vecs ∧
          prune_candidates vecs cands0 = [S] ∧
          m' = (compute_vectors tbl ts m0 cands0).2 := by
  intro slices
  induction slices with
  | nil =>
    intro m cands S m' h
    simp [narrow_slices] at h
  | cons ts rest ih =>
    intro m cands S m' h
    unfold narrow_slices at h
    split at h
    · cases h
    · rename_i vecs m2 heq
      rcases hp : prune_candidates vecs cands with _ | ⟨S0, _ | ⟨S1, ss⟩⟩
      · rw [hp] at h
        obtain ⟨pre', post', ts', cands0, m0, vecs', hsplit, hrun, hv, hpr,
          hm'⟩ := ih _ _ _ _ h
        refine ⟨ts :: pre', post', ts', cands0, m0, vecs',
          by rw [hsplit, List.cons_append], ?_, hv, hpr, hm'⟩
        simp only [narrow_run, heq, hp]
        exact hrun
      · rw [hp] at h
        have hS : S0 = S := by
          injection h with h'
          injection h' with h1 h2
          injection h1
        have hm2 : m2 = m' := by
          injection h with h'
          injection h' with h1 h2
        refine ⟨[], rest, ts, cands, m, vecs, rfl, rfl, by rw [heq],
          by rw [hp, hS], ?_⟩
        rw [heq, ← hm2]
      · rw [hp] at h
        obtain ⟨pre', post', ts', cands0, m0, vecs', hsplit, hrun, hv, hpr,
          hm'⟩ := ih _ _ _ _ h
        refine ⟨ts :: pre', post', ts', cands0, m0, vecs',
          by rw [hsplit, List.cons_append], ?_, hv, hpr, hm'⟩
        simp only [narrow_run, heq, hp]
        exact hrun

theorem c7_choice_from_singleton_witness :
    ∃ (pre post : List (List (Fin 4 × Fin 4))) (ts : List (Fin 4 × Fin 4))
      (cands0 : List (List (Fin 4 × Fin 4))) (m0 : QMap (Fin 4) (Fin 4))
      (vecs : List (List Nat)),
      c7w_timeslices = pre ++ ts :: post ∧
        narrow_run c7_tbl c7w_m (get_edge_sets c7_device_edges 1) pre
          = some (cands0, m0) ∧
        (compute_vectors c7_tbl ts m0 cands0).1 = some vecs ∧
        prune_candidates vecs cands0 = [[(1, 2)]] ∧
        c7w_m = (compute_vectors c7_tbl ts m0 cands0).2 :=
  c7_choice_from_singleton c7_tbl c7w_timeslices c7w_m
    (get_edge_sets c7_device_edges 1) [(1, 2)] c7w_m (by decide)

theorem apply_swap_fold_ops_length (l : List (P × P)) :
    ∀ st : RouterState P L,
      (l.foldl (fun s e => apply_swap s [e]) st).physical_ops.length =
        st.physical_ops.length + l.length := by
  induction l with
  | nil => intro st; rfl
  | cons e es ih =>
    intro st
    rw [List.foldl_cons, ih]
    simp [apply_swap]
    omega

theorem swap_along_path_ops_length (st : RouterState P L) (path : List P) :
    (swap_along_path st path).physical_ops.length =
      st.physical_ops.length + (path.length - 1) := by
  unfold swap_along_path
  rw [apply_swap_fold_ops_length]
  congr 1
  rw [List.length_zip, List.length_tail]
  omega

/-- C10: when `bring_farthest_pair_together` has selected a pair whose mapped
sites are at shortest-path distance `d ≥ 2` (so `nx.shortest_path` returns a
path of `d + 1` sites, as the code asserts), the two `swap_along_path` calls
append exactly `d - 1` exchange operations: `⌊d/2⌋ - 1` along the first half
`path[:midpoint]` and `d - ⌊d/2⌋` along the second half `path[midpoint:]`. -/
theorem c10_fallback_swap_count (st : RouterState P L) (path : List P)
    (d : Nat) (hd : 2 ≤ d) (hlen : path.length = d + 1) :
    (swap_along_path st (path.take (d / 2))).physical_ops.length =
        st.physical_ops.length + (d / 2 - 1) ∧
      (swap_toward_midpoint st path d).physical_ops.length =
        st.physical_ops.length + ((d / 2 - 1) + (d - d / 2)) ∧
      (d / 2 - 1) + (d - d / 2) = d - 1 := by
  have h1 : (path.take (d / 2)).length = d / 2 := by
    rw [List.length_take]
    omega
  have h2 : (path.drop (d / 2)).length = d + 1 - d / 2 := by
    rw [List.length_drop, hlen]
  have ha := swap_along_path_ops_length st (path.take (d / 2))
  rw [h1] at ha
  refine ⟨ha, ?_, by omega⟩
  unfold swap_toward_midpoint
  rw [swap_along_path_ops_length, h2, ha]
  omega

theorem c10_fallback_swap_count_witness :
    (swap_toward_midpoint
      (⟨⟨fun _ => none, fun _ => none⟩, []⟩ : RouterState Nat Nat)
      [0, 1, 2] 2).physical_ops.length = 1 := by
  have h := c10_fallback_swap_count
    (⟨⟨fun _ => none, fun _ => none⟩, []⟩ : RouterState Nat Nat)
    [0, 1, 2] 2 (by omega) (by rfl)
  simpa using h.2.1

end RouterTheorems

section InitializationTheorems

variable {P L : Type} [DecidableEq P] [DecidableEq L]

theorem mem_candidates_of {lN : L → List L} {st : PlacementState P L}
    {mx : Nat} {l : L} (h : l ∈ candidates_of lN st mx) : l ∈ st.unplaced := by
  unfold candidates_of at h
  simp only [List.mem_map, List.mem_filter] at h
  obtain ⟨vn, ⟨hvn, _⟩, hfst⟩ := h
  unfold nums_placed at hvn
  simp only [List.mem_map] at hvn
  obtain ⟨u, hu, hueq⟩ := hvn
  rw [← hfst, ← hueq]
  exact hu

theorem mem_border_of {dN : P → List P} {st : PlacementState P L} {p : P}
    (h : p ∈ border_of dN st) : ¬ p ∈ keys_of st := by
  unfold border_of at h
  simp only [List.mem_dedup, List.mem_filter, decide_eq_true_eq] at h
  exact h.2

theorem mem_best_candidates {lN : L → List L} {dN : P → List P}
    {pd : P → P → Nat} {st : PlacementState P L} {mx mtd : Nat} {lp : L × P}
    (h : lp ∈ best_candidates_of lN dN pd st mx mtd) :
    lp.1 ∈ st.unplaced ∧ ¬ lp.2 ∈ keys_of st := by
  unfold best_candidates_of at h
  simp only [List.mem_map, List.mem_filter] at h
  obtain ⟨x, ⟨hmem, _⟩, hfst⟩ := h
  unfold total_distances_of at hmem
  simp only [List.mem_flatten, List.mem_map] at hmem
  obtain ⟨inner, ⟨l1, hl1, hinner⟩, hin⟩ := hmem
  rw [← hinner] at hin
  simp only [List.mem_map] at hin
  obtain ⟨p1, hp1, heq⟩ := hin
  have hx1 : x.1 = (l1, p1) := by
    rw [← heq]
  rw [← hfst, hx1]
  exact ⟨mem_candidates_of hl1, mem_border_of hp1⟩

theorem place_one_spec (lN : L → List L) (dN : P → List P) (pd : P → P → Nat)
    (pick : List (L × P) → Option (L × P))
    (hpick : ∀ xs x, pick xs = some x → x ∈ xs)
    (st st' : PlacementState P L)
    (h : place_one lN dN pd pick st = some st') :
    ∃ l p, l ∈ st.unplaced ∧ ¬ p ∈ st.mapping.map Prod.fst ∧
      st' = ⟨st.mapping ++ [(p, l)], st.unplaced.erase l⟩ := by
  unfold place_one at h
  split at h
  · cases h
  · rename_i max_num hmax
    split at h
    · cases h
    · rename_i mtd hmtd
      split at h
      · cases h
      · rename_i lp hpk
        have hst' : st' = ⟨st.mapping ++ [(lp.2, lp.1)],
            st.unplaced.erase lp.1⟩ := by
          injection h with h'
          exact h'.symm
        have hmem := mem_best_candidates (hpick _ _ hpk)
        exact ⟨lp.1, lp.2, hmem.1, hmem.2, hst'⟩

theorem place_all_spec (lN : L → List L) (dN : P → List P) (pd : P → P → Nat)
    (pick : List (L × P) → Option (L × P))
    (hpick : ∀ xs x, pick xs = some x → x ∈ xs) :
    ∀ (fuel : Nat) (st : PlacementState P L) (mp : List (P × L)),
      place_all lN dN pd pick fuel st = some mp →
      (mp.map Prod.snd).Perm (st.mapping.map Prod.snd ++ st.unplaced) ∧
        ((st.mapping.map Prod.fst).Nodup → (mp.map Prod.fst).Nodup) := by
  intro fuel
  induction fuel with
  | zero =>
    intro st mp h
    unfold place_all at h
    split at h
    · rename_i hunp
      injection h with h'
      subst h'
      rw [hunp, List.append_nil]
      exact ⟨List.Perm.refl _, fun hn => hn⟩
    · cases h
  | succ f ih =>
    intro st mp h
    unfold place_all at h
    split at h
    · rename_i hunp
      injection h with h'
      subst h'
      rw [hunp, List.append_nil]
      exact ⟨List.Perm.refl _, fun hn => hn⟩
    · cases hpo : place_one lN dN pd pick st with
      | none =>
        rw [hpo] at h
        cases h
      | some st1 =>
        rw [hpo] at h
        simp only [Option.some_bind] at h
        obtain ⟨l, p, hl, hp, hst1⟩ := place_one_spec lN dN pd pick hpick
          st st1 hpo
        subst hst1
        obtain ⟨hperm, hnodup⟩ := ih _ _ h
        constructor
        · refine hperm.trans ?_
          simp only [List.map_append, List.map_cons, List.map_nil]
          rw [List.append_assoc]
          exact List.Perm.append_left _
            (List.Perm.trans (by rfl) (List.perm_cons_erase hl).symm)
        · intro hnod
          apply hnodup
          simp only [List.map_append, List.map_cons, List.map_nil]
          rw [List.nodup_append]
          refine ⟨hnod, List.nodup_singleton _, ?_⟩
          intro a ha hap
          rw [List.mem_singleton] at hap
          subst hap
          exact hp ha

/-- C9 (amended): whenever `get_initial_mapping` returns (centrality centers
and random tie-breaks abstracted as parameters, the choice always picking a
member of its candidate list), the returned mapping's values cover the
logical operand multiset exactly (a permutation of the vertex list) and its
keys are distinct physical sites — exactly one key per logical operand, so
the keys are *not* all physical sites when the device has strictly more sites
than there are logical operands; the router later extends the dictionary to
all sites with `None` slots in `set_initial_mapping`. -/
theorem c9_initial_mapping_coverage (lN : L → List L) (dN : P → List P)
    (pd : P → P → Nat) (pick : List (L × P) → Option (L × P))
    (hpick : ∀ xs x, pick xs = some x → x ∈ xs)
    (frontier_center : L) (device_center : P) (logical_vertices : List L)
    (hmem : frontier_center ∈ logical_vertices) (mp : List (P × L))
    (h : get_initial_mapping lN dN pd pick frontier_center device_center
      logical_vertices = some mp) :
    (mp.map Prod.snd).Perm logical_vertices ∧ (mp.map Prod.fst).Nodup ∧
      mp.length = logical_vertices.length := by
  unfold get_initial_mapping at h
  obtain ⟨hperm, hnodup⟩ := place_all_spec lN dN pd pick hpick _ _ _ h
  have hlv : ((([(device_center, frontier_center)] : List (P × L)).map
      Prod.snd) ++ logical_vertices.erase frontier_center).Perm
      logical_vertices := by
    simp only [List.map_cons, List.map_nil, List.singleton_append]
    exact (List.perm_cons_erase hmem).symm
  have hperm2 := hperm.trans hlv
  refine ⟨hperm2, hnodup (by simp), ?_⟩
  have hlen := hperm2.length_eq
  rw [List.length_map] at hlen
  exact hlen

theorem c9_initial_mapping_coverage_witness :
    (([((0 : Fin 2), (0 : Fin 2)), (1, 1)].map Prod.snd).Perm [0, 1]) ∧
      ([((0 : Fin 2), (0 : Fin 2)), (1, 1)].map Prod.fst).Nodup ∧
      ([((0 : Fin 2), (0 : Fin 2)), (1, 1)]).length
        = ([(0 : Fin 2), 1]).length :=
  c9_initial_mapping_coverage (fun _ => []) (fun p => [1 - p]) (fun _ _ => 1)
    head_pick (fun xs x h => List.mem_of_mem_head? (Option.mem_def.mpr h))
    0 0 [0, 1] (by decide) [(0, 0), (1, 1)] (by decide)

/-- C9 counterexample: one logical operand on the connected two-site path
device.  `get_initial_mapping` returns the singleton dictionary
`{center: operand}`, whose key set misses site `1`: the returned mapping does
*not* cover every physical site when the device has strictly more sites than
there are logical operands. -/
theorem c9_counterexample :
    get_initial_mapping (fun _ : Fin 1 => ([] : List (Fin 1)))
        (fun p : Fin 2 => [1 - p]) (fun _ _ => 1) head_pick 0 0 [0]
      = some [((0 : Fin 2), (0 : Fin 1))] ∧
      ¬ ((1 : Fin 2) ∈ ([((0 : Fin 2), (0 : Fin 1))].map Prod.fst)) := by
  decide

end InitializationTheorems

end CirqRouting
